/-
Verification of the terminal-velocity data module of the
pal5-constrain-mwhalo-shape repository (src/data/__init__.py).

The module filters survey rows by a longitude window, aggregates them into
integer-degree longitude bins, and builds an inverted correlation matrix.
Numeric data values are embedded as exact rationals; the transcendental
correlation entries are embedded as real numbers.  numpy's NaN, produced by
taking the mean of an empty selection, is embedded as `none` in `Option`.
All list and array primitives used by the source (boolean-mask indexing,
amin/amax, mean, floor) are modelled explicitly below.
-/
import Mathlib

set_option maxRecDepth 8000000

/-- numpy boolean-mask indexing `xs[mask]`: keep the entries of `xs` whose
mask entry is `true`. -/
def maskFilter {α : Type} : List Bool → List α → List α
  | true :: ms, x :: xs => x :: maskFilter ms xs
  | false :: ms, _ :: xs => maskFilter ms xs
  | _, _ => []

/-- `np.amin` on a nonempty list (the `[]` case is never reached by the
source: `_binlbins` raises on empty input before reducing). -/
def listMin : List ℚ → ℚ
  | [] => 0
  | x :: xs => xs.foldl min x

/-- `np.amax` on a nonempty list (same remark as `listMin`). -/
def listMax : List ℚ → ℚ
  | [] => 0
  | x :: xs => xs.foldl max x

/-- `np.mean`: the arithmetic mean, `none` (NaN) on an empty selection. -/
def npMean (l : List ℚ) : Option ℚ :=
  if l.isEmpty then none else some (l.sum / (l.length : ℚ))

/-- `np.isnan` on a possibly-NaN value. -/
def npIsNaN (o : Option ℚ) : Bool := o.isNone

/-- `int(np.floor(q))`: the floor of a rational, computed from the reduced
numerator and denominator by flooring integer division. -/
def npFloorInt (q : ℚ) : ℤ := q.num.fdiv (q.den : ℤ)

/-- Ceiling, as `-floor(-q)`; used only by the claim-C1 rendition below. -/
def npCeilInt (q : ℚ) : ℤ := -(npFloorInt (-q))

/-- The boolean mask `(glon > lo) * (glon < lo + 1)` computed by line 107 of
the source for one bin with lower edge `lo`. Both comparisons are strict. -/
def binMask (glon : List ℚ) (lo : ℚ) : List Bool :=
  glon.map (fun l => decide (lo < l) && decide (l < lo + 1))

/-- `_binlbins` (source lines 94-111): bin the longitude/velocity samples into
integer-degree bins.  `np.amin` of an empty array raises, modelled by the
error result.  `minglon`/`maxglon` are the floors of the extreme longitudes,
`nout = maxglon - minglon + 1` bins are produced, and bin `ii` averages the
entries whose longitude is strictly between `minglon + ii` and
`minglon + ii + 1`.  The mask built from `glon` indexes both arrays.  The
width parameter `dl` is accepted and never read, as in the source. -/
def binlbins (glon vterm : List ℚ) (dl : ℚ) :
    Except String (List (Option ℚ) × List (Option ℚ)) :=
  if glon = [] then
    .error "zero-size array to reduction operation minimum which has no identity"
  else
    let minglon : ℤ := npFloorInt (listMin glon)
    let maxglon : ℤ := npFloorInt (listMax glon)
    let nout : ℕ := (maxglon - minglon + 1).toNat
    .ok ((List.range nout).map (fun ii : ℕ =>
            npMean (maskFilter (binMask glon ((minglon : ℚ) + (ii : ℚ))) glon)),
         (List.range nout).map (fun ii : ℕ =>
            npMean (maskFilter (binMask glon ((minglon : ℚ) + (ii : ℚ))) vterm)))

/-- Rendition of claim C1's own words (not of the source): half-open
integer-degree bins `[min+i, min+i+1)` for `i` in `0..(ceil(max)-floor(min))`
inclusive, each emitting the mean of the longitude values, and of the
velocity values whose longitude, falls in that half-open bin. -/
def binlbinsSpecC1 (glon vterm : List ℚ) : List (Option ℚ) × List (Option ℚ) :=
  let lo : ℤ := npFloorInt (listMin glon)
  let hi : ℤ := npCeilInt (listMax glon)
  let nout : ℕ := (hi - lo + 1).toNat
  ((List.range nout).map (fun ii : ℕ =>
      npMean (glon.filter (fun l =>
        decide ((lo : ℚ) + (ii : ℚ) ≤ l) && decide (l < (lo : ℚ) + (ii : ℚ) + 1)))),
   (List.range nout).map (fun ii : ℕ =>
      npMean (((glon.zip vterm).filter (fun r =>
        decide ((lo : ℚ) + (ii : ℚ) ≤ r.1) && decide (r.1 < (lo : ℚ) + (ii : ℚ) + 1))).map
          Prod.snd)))

/-- Rendition of the amended claim C1: open integer-degree bins
`(floor(min)+i, floor(min)+i+1)` for `i` in `0..(floor(max)-floor(min))`
inclusive (so `floor(max)-floor(min)+1` emitted pairs), each emitting the
mean of the longitude values, and of the velocity values whose longitude,
lies strictly inside the open bin; a longitude equal to a bin edge
contributes to no bin. -/
def binlbinsAmendedC1 (glon vterm : List ℚ) : List (Option ℚ) × List (Option ℚ) :=
  let lo : ℤ := npFloorInt (listMin glon)
  let hi : ℤ := npFloorInt (listMax glon)
  let nout : ℕ := (hi - lo + 1).toNat
  ((List.range nout).map (fun ii : ℕ =>
      npMean (glon.filter (fun l =>
        decide ((lo : ℚ) + (ii : ℚ) < l) && decide (l < (lo : ℚ) + (ii : ℚ) + 1)))),
   (List.range nout).map (fun ii : ℕ =>
      npMean (((glon.zip vterm).filter (fun r =>
        decide ((lo : ℚ) + (ii : ℚ) < r.1) && decide (r.1 < (lo : ℚ) + (ii : ℚ) + 1))).map
          Prod.snd)))

/-- The raw kernel matrix built by the loop of `_calc_corr` (source lines
83-86): entry `(i, j)` is `exp(-|s_i - s_j| / dsinl)`. -/
noncomputable def calc_corr_raw (singlon : List ℝ) (dsinl : ℝ)
    (i j : Fin singlon.length) : ℝ :=
  Real.exp (-|singlon.get i - singlon.get j| / dsinl)

/-- `_calc_corr` (source lines 81-88): the raw kernel averaged with its
transpose, plus `10.0 ** -10.0` on the diagonal for stability. -/
noncomputable def calc_corr (singlon : List ℝ) (dsinl : ℝ)
    (i j : Fin singlon.length) : ℝ :=
  0.5 * (calc_corr_raw singlon dsinl i j + calc_corr_raw singlon dsinl j i)
    + (if i = j then (10 : ℝ) ^ (-10 : ℤ) else 0)

/-- `np.sin(glon / 180 * np.pi)` on a possibly-NaN array, NaN propagating. -/
noncomputable def sinlon (g : List (Option ℚ)) : List (Option ℝ) :=
  g.map (Option.map (fun q : ℚ => Real.sin ((q : ℝ) / 180 * Real.pi)))

/-- `_calc_corr` applied to a possibly-NaN array under IEEE semantics: an
entry is NaN (`none`) exactly when one of its two samples is; a defined
entry carries the symmetrised kernel value plus the diagonal term. -/
noncomputable def calcCorrOpt (s : List (Option ℝ)) (dsinl : ℝ) :
    ℕ → ℕ → Option ℝ :=
  fun i j =>
    match s.getD i none, s.getD j none with
    | some a, some b =>
        some (0.5 * (Real.exp (-|a - b| / dsinl) + Real.exp (-|b - a| / dsinl))
          + (if i = j then (10 : ℝ) ^ (-10 : ℤ) else 0))
    | _, _ => none

/-- `np.linalg.inv` on an `n × n` matrix of possibly-NaN entries, modelled by
the Mathlib matrix inverse when every entry inside the square is defined, and
by an all-NaN result otherwise. Entries outside the square are `none`. -/
noncomputable def linalgInv (n : ℕ) (M : ℕ → ℕ → Option ℝ) : ℕ → ℕ → Option ℝ :=
  if ∀ i < n, ∀ j < n, (M i j).isSome = true then
    fun i j =>
      if h : i < n ∧ j < n then
        some (((Matrix.of (fun a b : Fin n => (M a.val b.val).getD 0))⁻¹)
          ⟨i, h.1⟩ ⟨j, h.2⟩)
      else none
  else fun _ _ => none

/-- The correlation step shared by the three terminal-velocity readers
(e.g. source lines 150-152): `np.linalg.inv(_calc_corr(np.sin(glon / 180 *
np.pi), dsinl))`. -/
noncomputable def corrStep (g : List (Option ℚ)) (dsinl : ℝ) : ℕ → ℕ → Option ℝ :=
  linalgInv g.length (calcCorrOpt (sinlon g) dsinl)

/-- The record returned by each terminal-velocity reader. -/
structure TermVelTuple where
  glon : List (Option ℚ)
  vterm : List (Option ℚ)
  corr : ℕ → ℕ → Option ℝ

/-- The longitude-window filter step of the readers (e.g. source lines
139-141): the strict mask `(glon > lo) * (glon < hi)` is computed from
column 0 and applied to both columns. -/
def applyLonFilter (lo hi : ℚ) (rows : List (ℚ × ℚ)) : List ℚ × List ℚ :=
  let glon := rows.map Prod.fst
  let vterm := rows.map Prod.snd
  let indx := glon.map (fun l => decide (lo < l) && decide (l < hi))
  (maskFilter indx glon, maskFilter indx vterm)

/-- Truthiness of the Python name `bin` tested on source line 143.
`readClemens` takes no `bin` parameter, so the name resolves to the builtin
`bin` function, an object that is always truthy. -/
def builtin_bin_truthy : Bool := true

/-- `readClemens` (source lines 120-154), parametrised by the rows parsed
from the data file: filter to the window `(40, 80)`, always bin (the guard
tests `builtin_bin_truthy`), drop the NaN rows of the binned output using
the mask computed from the binned longitudes, and attach the inverted
correlation matrix. -/
noncomputable def readClemens (rows : List (ℚ × ℚ)) (dsinl : ℝ) :
    Except String TermVelTuple :=
  let fl := applyLonFilter 40 80 rows
  if builtin_bin_truthy then
    match binlbins fl.1 fl.2 1 with
    | .error e => .error e
    | .ok gv =>
        .ok ⟨maskFilter (gv.1.map (fun o => !(npIsNaN o))) gv.1,
             maskFilter (gv.1.map (fun o => !(npIsNaN o))) gv.2,
             corrStep (maskFilter (gv.1.map (fun o => !(npIsNaN o))) gv.1) dsinl⟩
  else
    .ok ⟨fl.1.map some, fl.2.map some, corrStep (fl.1.map some) dsinl⟩

/-- `readMcClureGriffiths07` (source lines 163-196), parametrised by the
parsed rows: filter to the window `(280, 320)`, bin when `bin` is set (no
NaN dropping), and attach the inverted correlation matrix. -/
noncomputable def readMcClureGriffiths07 (rows : List (ℚ × ℚ)) (dsinl : ℝ)
    (bin : Bool) : Except String TermVelTuple :=
  let fl := applyLonFilter 280 320 rows
  if bin then
    match binlbins fl.1 fl.2 1 with
    | .error e => .error e
    | .ok gv => .ok ⟨gv.1, gv.2, corrStep gv.1 dsinl⟩
  else
    .ok ⟨fl.1.map some, fl.2.map some, corrStep (fl.1.map some) dsinl⟩

/-- `readMcClureGriffiths16` (source lines 202-235), parametrised by the
parsed rows: filter to the window `(40, 80)`, bin when `bin` is set (no NaN
dropping), and attach the inverted correlation matrix. -/
noncomputable def readMcClureGriffiths16 (rows : List (ℚ × ℚ)) (dsinl : ℝ)
    (bin : Bool) : Except String TermVelTuple :=
  let fl := applyLonFilter 40 80 rows
  if bin then
    match binlbins fl.1 fl.2 1 with
    | .error e => .error e
    | .ok gv => .ok ⟨gv.1, gv.2, corrStep gv.1 dsinl⟩
  else
    .ok ⟨fl.1.map some, fl.2.map some, corrStep (fl.1.map some) dsinl⟩

/-- `readallMcClureGriffiths` (source lines 241-250): splat the fields of the
07 reader followed by the fields of the 16 reader into one flat 6-tuple. -/
noncomputable def readallMcClureGriffiths (rows07 rows16 : List (ℚ × ℚ))
    (dsinl : ℝ) (bin : Bool) :
    Except String (List (Option ℚ) × List (Option ℚ) × (ℕ → ℕ → Option ℝ)
      × List (Option ℚ) × List (Option ℚ) × (ℕ → ℕ → Option ℝ)) :=
  match readMcClureGriffiths07 rows07 dsinl bin with
  | .error e => .error e
  | .ok r07 =>
      match readMcClureGriffiths16 rows16 dsinl bin with
      | .error e => .error e
      | .ok r16 => .ok (r07.glon, r07.vterm, r07.corr, r16.glon, r16.vterm, r16.corr)

/-- IEEE `<=` on possibly-NaN values: any comparison with NaN is false. -/
def fleB (a b : Option ℚ) : Bool :=
  match a, b with
  | some x, some y => decide (x ≤ y)
  | _, _ => false

theorem maskFilter_map_fun {α β γ : Type} (f : α → β) (g : α → γ) (p : β → Bool) :
    ∀ rows : List α,
      maskFilter ((rows.map f).map p) (rows.map g)
        = (rows.filter (fun r => p (f r))).map g := by
  intro rows
  induction rows with
  | nil => rfl
  | cons r t ih =>
      show maskFilter (p (f r) :: (t.map f).map p) (g r :: t.map g)
        = ((r :: t).filter (fun x => p (f x))).map g
      cases hp : p (f r) with
      | false =>
          rw [List.filter_cons, if_neg (by simp [hp])]
          exact ih
      | true =>
          rw [List.filter_cons, if_pos (by simp [hp]), List.map_cons]
          exact congrArg (List.cons (g r)) ih

theorem maskFilter_map_self {α : Type} (p : α → Bool) :
    ∀ xs : List α, maskFilter (xs.map p) xs = xs.filter p := by
  intro xs
  induction xs with
  | nil => rfl
  | cons x t ih =>
      cases hp : p x <;> simp [maskFilter, List.filter_cons, hp, ih]

theorem maskFilter_map_zip {β γ : Type} (p : β → Bool) :
    ∀ (xs : List β) (ys : List γ),
      maskFilter (xs.map p) ys
        = ((xs.zip ys).filter (fun r => p r.1)).map Prod.snd := by
  intro xs
  induction xs with
  | nil => intro ys; rfl
  | cons x t ih =>
      intro ys
      cases ys with
      | nil => cases hp : p x <;> simp [maskFilter]
      | cons y u => cases hp : p x <;> simp [maskFilter, List.filter_cons, hp, ih]

theorem foldl_min_le_init (xs : List ℚ) : ∀ a : ℚ, xs.foldl min a ≤ a := by
  induction xs with
  | nil => intro a; exact le_refl a
  | cons x t ih => intro a; exact le_trans (ih (min a x)) (min_le_left a x)

theorem foldl_min_le_mem (xs : List ℚ) :
    ∀ (a x : ℚ), x ∈ xs → xs.foldl min a ≤ x := by
  induction xs with
  | nil => intro a x hx; cases hx
  | cons y t ih =>
      intro a x hx
      rcases List.mem_cons.mp hx with h | h
      · subst h; exact le_trans (foldl_min_le_init t (min a x)) (min_le_right a x)
      · exact ih (min a y) x h

theorem foldl_min_mem (xs : List ℚ) :
    ∀ a : ℚ, xs.foldl min a = a ∨ xs.foldl min a ∈ xs := by
  induction xs with
  | nil => intro a; exact Or.inl rfl
  | cons x t ih =>
      intro a
      rcases ih (min a x) with h | h
      · rcases min_choice a x with hm | hm
        · exact Or.inl (h.trans hm)
        · exact Or.inr (by rw [List.mem_cons]; exact Or.inl (h.trans hm))
      · exact Or.inr (List.mem_cons_of_mem x h)

theorem listMin_le (l : List ℚ) (x : ℚ) (hx : x ∈ l) : listMin l ≤ x := by
  cases l with
  | nil => cases hx
  | cons y t =>
      rcases List.mem_cons.mp hx with h | h
      · subst h; exact foldl_min_le_init t x
      · exact foldl_min_le_mem t y x h

theorem listMin_mem (l : List ℚ) (h : l ≠ []) : listMin l ∈ l := by
  cases l with
  | nil => exact absurd rfl h
  | cons y t =>
      show t.foldl min y ∈ y :: t
      rcases foldl_min_mem t y with h1 | h1
      · rw [h1]; exact List.mem_cons_self y t
      · exact List.mem_cons_of_mem y h1

theorem le_foldl_max_init (xs : List ℚ) : ∀ a : ℚ, a ≤ xs.foldl max a := by
  induction xs with
  | nil => intro a; exact le_refl a
  | cons x t ih => intro a; exact le_trans (le_max_left a x) (ih (max a x))

theorem mem_le_foldl_max (xs : List ℚ) :
    ∀ (a x : ℚ), x ∈ xs → x ≤ xs.foldl max a := by
  induction xs with
  | nil => intro a x hx; cases hx
  | cons y t ih =>
      intro a x hx
      rcases List.mem_cons.mp hx with h | h
      · subst h; exact le_trans (le_max_right a x) (le_foldl_max_init t (max a x))
      · exact ih (max a y) x h

theorem foldl_max_mem (xs : List ℚ) :
    ∀ a : ℚ, xs.foldl max a = a ∨ xs.foldl max a ∈ xs := by
  induction xs with
  | nil => intro a; exact Or.inl rfl
  | cons x t ih =>
      intro a
      rcases ih (max a x) with h | h
      · rcases max_choice a x with hm | hm
        · exact Or.inl (h.trans hm)
        · exact Or.inr (by rw [List.mem_cons]; exact Or.inl (h.trans hm))
      · exact Or.inr (List.mem_cons_of_mem x h)

theorem le_listMax (l : List ℚ) (x : ℚ) (hx : x ∈ l) : x ≤ listMax l := by
  cases l with
  | nil => cases hx
  | cons y t =>
      rcases List.mem_cons.mp hx with h | h
      · subst h; exact le_foldl_max_init t x
      · exact mem_le_foldl_max t y x h

theorem listMax_mem (l : List ℚ) (h : l ≠ []) : listMax l ∈ l := by
  cases l with
  | nil => exact absurd rfl h
  | cons y t =>
      show t.foldl max y ∈ y :: t
      rcases foldl_max_mem t y with h1 | h1
      · rw [h1]; exact List.mem_cons_self y t
      · exact List.mem_cons_of_mem y h1

theorem length_mul_le_sum (l : List ℚ) (a : ℚ) (h : ∀ x ∈ l, a ≤ x) :
    (l.length : ℚ) * a ≤ l.sum := by
  induction l with
  | nil => simp
  | cons x t ih =>
      have hx := h x (List.mem_cons_self x t)
      have ht := ih (fun y hy => h y (List.mem_cons_of_mem x hy))
      simp only [List.sum_cons, List.length_cons]
      push_cast
      nlinarith [ht, hx]

theorem sum_le_length_mul (l : List ℚ) (b : ℚ) (h : ∀ x ∈ l, x ≤ b) :
    l.sum ≤ (l.length : ℚ) * b := by
  induction l with
  | nil => simp
  | cons x t ih =>
      have hx := h x (List.mem_cons_self x t)
      have ht := ih (fun y hy => h y (List.mem_cons_of_mem x hy))
      simp only [List.sum_cons, List.length_cons]
      push_cast
      nlinarith [ht, hx]

theorem npMean_bounds (l : List ℚ) (m : ℚ) (h : npMean l = some m) :
    listMin l ≤ m ∧ m ≤ listMax l := by
  unfold npMean at h
  by_cases he : l.isEmpty
  · rw [if_pos he] at h; cases h
  · rw [if_neg he] at h
    have hm := Option.some.inj h
    have hne : l ≠ [] := fun e => he (by simp [e])
    have hlen : 0 < (l.length : ℚ) := by
      have := List.length_pos.mpr hne
      exact_mod_cast this
    constructor
    · rw [← hm, le_div_iff₀ hlen, mul_comm]
      exact length_mul_le_sum l (listMin l) (fun x hx => listMin_le l x hx)
    · rw [← hm, div_le_iff₀ hlen, mul_comm]
      exact sum_le_length_mul l (listMax l) (fun x hx => le_listMax l x hx)

theorem npMean_empty_ne (m : ℚ) : npMean [] ≠ some m := by
  simp [npMean]

theorem npMean_strict_bounds (l : List ℚ) (lo hi : ℚ)
    (hmem : ∀ x ∈ l, lo < x ∧ x < hi) (m : ℚ) (h : npMean l = some m) :
    lo < m ∧ m < hi := by
  have hne : l ≠ [] := by
    intro e; subst e; exact npMean_empty_ne m h
  have hb := npMean_bounds l m h
  have h1 := hmem (listMin l) (listMin_mem l hne)
  have h2 := hmem (listMax l) (listMax_mem l hne)
  exact ⟨lt_of_lt_of_le h1.1 hb.1, lt_of_le_of_lt hb.2 h2.2⟩

theorem mem_binMask_filter (glon : List ℚ) (lo x : ℚ)
    (hx : x ∈ maskFilter (binMask glon lo) glon) : lo < x ∧ x < lo + 1 := by
  rw [binMask, maskFilter_map_self] at hx
  have h := (List.mem_filter.mp hx).2
  simp only [Bool.and_eq_true, decide_eq_true_eq] at h
  exact h

theorem binlbins_ok_elim (glon vterm : List ℚ) (dl : ℚ) (og ov : List (Option ℚ))
    (h : binlbins glon vterm dl = Except.ok (og, ov)) :
    glon ≠ []
    ∧ og = (List.range ((npFloorInt (listMax glon) - npFloorInt (listMin glon)
          + 1).toNat)).map
        (fun ii : ℕ => npMean (maskFilter
          (binMask glon ((npFloorInt (listMin glon) : ℚ) + (ii : ℚ))) glon))
    ∧ ov = (List.range ((npFloorInt (listMax glon) - npFloorInt (listMin glon)
          + 1).toNat)).map
        (fun ii : ℕ => npMean (maskFilter
          (binMask glon ((npFloorInt (listMin glon) : ℚ) + (ii : ℚ))) vterm)) := by
  by_cases hg : glon = []
  · unfold binlbins at h
    rw [if_pos hg] at h
    cases h
  · unfold binlbins at h
    rw [if_neg hg] at h
    simp only [Except.ok.injEq, Prod.mk.injEq] at h
    exact ⟨hg, h.1.symm, h.2.symm⟩

theorem getD_map_range {α : Type} (n : ℕ) (f : ℕ → Option α) (ii : ℕ) :
    ((List.range n).map f).getD ii none = if ii < n then f ii else none := by
  by_cases hlt : ii < n
  · rw [if_pos hlt, List.getD_eq_getElem?_getD, List.getElem?_map,
      List.getElem?_range hlt]
    rfl
  · rw [if_neg hlt, List.getD_eq_getElem?_getD, List.getElem?_eq_none]
    · rfl
    · simpa using Nat.le_of_not_lt hlt

theorem binlbins_og_pairwise (glon vterm : List ℚ) (dl : ℚ)
    (og ov : List (Option ℚ)) (h : binlbins glon vterm dl = Except.ok (og, ov)) :
    og.Pairwise (fun a b => ∀ x y, a = some x → b = some y → x < y) := by
  obtain ⟨hg, hog, hov⟩ := binlbins_ok_elim glon vterm dl og ov h
  subst hog
  rw [List.pairwise_map]
  refine List.Pairwise.imp ?_ (List.pairwise_lt_range _)
  intro a b hab x y hx hy
  have hxb := npMean_strict_bounds _ _ _
    (fun z hz => mem_binMask_filter glon _ z hz) x hx
  have hyb := npMean_strict_bounds _ _ _
    (fun z hz => mem_binMask_filter glon _ z hz) y hy
  have hcast : (a : ℚ) + 1 ≤ (b : ℚ) := by exact_mod_cast hab
  linarith [hxb.2, hyb.1]

theorem pairwise_reduceOption {R : ℚ → ℚ → Prop} (l : List (Option ℚ))
    (h : l.Pairwise (fun a b => ∀ x y, a = some x → b = some y → R x y)) :
    l.reduceOption.Pairwise R := by
  induction l with
  | nil => simp [List.reduceOption]
  | cons o t ih =>
      rw [List.pairwise_cons] at h
      cases o with
      | none => rw [List.reduceOption_cons_of_none]; exact ih h.2
      | some x =>
          rw [List.reduceOption_cons_of_some]
          rw [List.pairwise_cons]
          constructor
          · intro y hy
            exact h.1 (some y) (List.reduceOption_mem_iff.mp hy) x y rfl rfl
          · exact ih h.2

theorem binlbins_chain_lt (glon vterm : List ℚ) (dl : ℚ)
    (og ov : List (Option ℚ)) (h : binlbins glon vterm dl = Except.ok (og, ov)) :
    List.Chain' (fun x y : ℚ => x < y) og.reduceOption :=
  (pairwise_reduceOption og (binlbins_og_pairwise glon vterm dl og ov h)).chain'

theorem filter_not_isNaN (l : List (Option ℚ)) :
    maskFilter (l.map (fun o => !(npIsNaN o))) l = l.reduceOption.map some := by
  rw [maskFilter_map_self]
  induction l with
  | nil => rfl
  | cons o t ih =>
      cases o with
      | none =>
          rw [List.filter_cons, if_neg (by simp [npIsNaN]),
            List.reduceOption_cons_of_none]
          exact ih
      | some x =>
          rw [List.filter_cons, if_pos (by simp [npIsNaN]),
            List.reduceOption_cons_of_some, List.map_cons]
          exact congrArg (List.cons (some x)) ih

theorem chain_fleB_of_chain_lt (l : List ℚ)
    (h : List.Chain' (fun x y : ℚ => x < y) l) :
    List.Chain' (fun a b => fleB a b = true) (l.map some) := by
  rw [List.chain'_map]
  refine List.Chain'.imp ?_ h
  intro a b hab
  simp [fleB, le_of_lt hab]

theorem readMG07_ok_elim (rows : List (ℚ × ℚ)) (dsinl : ℝ) (r : TermVelTuple)
    (h : readMcClureGriffiths07 rows dsinl true = Except.ok r) :
    ∃ og ov, binlbins (applyLonFilter 280 320 rows).1
        (applyLonFilter 280 320 rows).2 1 = Except.ok (og, ov) ∧ r.glon = og := by
  simp only [readMcClureGriffiths07, if_true] at h
  cases hb : binlbins (applyLonFilter 280 320 rows).1 (applyLonFilter 280 320 rows).2 1 with
  | error e => rw [hb] at h; cases h
  | ok gv =>
      rw [hb] at h
      have h2 := Except.ok.inj h
      subst h2
      exact ⟨gv.1, gv.2, by simpa using hb, rfl⟩

theorem readMG16_ok_elim (rows : List (ℚ × ℚ)) (dsinl : ℝ) (r : TermVelTuple)
    (h : readMcClureGriffiths16 rows dsinl true = Except.ok r) :
    ∃ og ov, binlbins (applyLonFilter 40 80 rows).1
        (applyLonFilter 40 80 rows).2 1 = Except.ok (og, ov) ∧ r.glon = og := by
  simp only [readMcClureGriffiths16, if_true] at h
  cases hb : binlbins (applyLonFilter 40 80 rows).1 (applyLonFilter 40 80 rows).2 1 with
  | error e => rw [hb] at h; cases h
  | ok gv =>
      rw [hb] at h
      have h2 := Except.ok.inj h
      subst h2
      exact ⟨gv.1, gv.2, by simpa using hb, rfl⟩

theorem readClemens_ok_elim (rows : List (ℚ × ℚ)) (dsinl : ℝ) (r : TermVelTuple)
    (h : readClemens rows dsinl = Except.ok r) :
    ∃ og ov, binlbins (applyLonFilter 40 80 rows).1
        (applyLonFilter 40 80 rows).2 1 = Except.ok (og, ov)
      ∧ r.glon = maskFilter (og.map (fun o => !(npIsNaN o))) og := by
  simp only [readClemens, builtin_bin_truthy, if_true] at h
  cases hb : binlbins (applyLonFilter 40 80 rows).1 (applyLonFilter 40 80 rows).2 1 with
  | error e => rw [hb] at h; cases h
  | ok gv =>
      rw [hb] at h
      have h2 := Except.ok.inj h
      subst h2
      exact ⟨gv.1, gv.2, by simpa using hb, rfl⟩

/-- C5: calling `_binlbins` with an empty longitude sequence (as when
filtering leaves no rows) yields the data-unavailable error raised by
`np.amin` on a zero-size array, rather than silently returning an empty
result. -/
theorem c5_empty_error (vterm : List ℚ) (dl : ℚ) :
    binlbins [] vterm dl =
      Except.error "zero-size array to reduction operation minimum which has no identity" :=
  rfl

/-- C6: on `glon = [40.2, 40.7, 42.1]`, `vterm = [10, 12, 20]`, `dl = 1`,
`_binlbins` returns exactly three pairs: bin `[40,41)` averages the first two
entries giving `(40.45, 11)`, bin `[41,42)` is empty giving `(NaN, NaN)`, and
bin `[42,43)` gives `(42.1, 20)` (40.2 = 201/5, 40.7 = 407/10, 42.1 = 421/10,
40.45 = 809/20). -/
theorem c6_concrete :
    binlbins [201/5, 407/10, 421/10] [10, 12, 20] 1 =
      Except.ok ([some (809/20), none, some (421/10)], [some 11, none, some 20]) := by
  with_unfolding_all rfl

/-- C10: the bin-width parameter `dl` of `_binlbins` is accepted but never
used; for every input the output is identical to the output with `dl = 1`. -/
theorem c10_dl_unused (glon vterm : List ℚ) (dl : ℚ) :
    binlbins glon vterm dl = binlbins glon vterm 1 := rfl

/-- C1 counterexample: the claimed half-open-bin, ceiling-count description
of `_binlbins` fails on concrete inputs.  On `glon = [40]` the code's strict
lower bound excludes the value 40 from bin `[40,41)` (code emits NaN, the
claim emits 40), and on `glon = [40.5]` the claimed pair count
`ceil(40.5) - floor(40.5) + 1 = 2` differs from the code's
`floor(40.5) - floor(40.5) + 1 = 1`. -/
theorem c1_counterexample :
    (binlbins [40] [5] 1).toOption ≠ some (binlbinsSpecC1 [40] [5])
    ∧ (binlbins [81/2] [1] 1).toOption ≠ some (binlbinsSpecC1 [81/2] [1]) := by
  with_unfolding_all decide

/-- C1 amended: for every nonempty pair of equal-length longitude and
velocity sequences, `_binlbins` partitions the longitude range into
integer-degree open bins `(floor(min)+i, floor(min)+i+1)` for `i` in
`0..(floor(max)-floor(min))`, and for each bin emits the arithmetic mean of
the longitude values and of the velocity values whose longitude falls
strictly inside that open bin (a value with longitude exactly equal to a bin
edge contributes to no bin, and the number of emitted pairs is
`floor(max)-floor(min)+1`). -/
theorem c1_amended_theorem (glon vterm : List ℚ) (dl : ℚ) (h1 : glon ≠ [])
    (h2 : glon.length = vterm.length) :
    binlbins glon vterm dl = Except.ok (binlbinsAmendedC1 glon vterm) := by
  unfold binlbins binlbinsAmendedC1
  rw [if_neg h1]
  simp only [binMask, maskFilter_map_self]
  simp only [maskFilter_map_zip]

theorem c1_amended_witness :
    ([(81:ℚ)/2] ≠ ([] : List ℚ) ∧ ([(81:ℚ)/2] : List ℚ).length = ([(1:ℚ)] : List ℚ).length)
    ∧ binlbins [(81:ℚ)/2] [(1:ℚ)] 1 = Except.ok (binlbinsAmendedC1 [(81:ℚ)/2] [(1:ℚ)]) :=
  ⟨⟨by decide, by decide⟩, c1_amended_theorem [(81:ℚ)/2] [(1:ℚ)] 1 (by decide) (by decide)⟩

/-- C2: for every sine-longitude sequence and every `dsinl > 0`, the matrix
built by `_calc_corr` is symmetric, every diagonal entry equals exactly
`1 + 1e-10`, the raw kernel already equals its transpose, and the
averaging-with-transpose step is a no-op (the symmetrised matrix equals the
raw matrix plus the diagonal term). -/
theorem c2_calc_corr_props (s : List ℝ) (dsinl : ℝ) (h : 0 < dsinl)
    (i j : Fin s.length) :
    calc_corr s dsinl i j = calc_corr s dsinl j i
    ∧ calc_corr s dsinl i i = 1 + (10 : ℝ) ^ (-10 : ℤ)
    ∧ calc_corr_raw s dsinl i j = calc_corr_raw s dsinl j i
    ∧ calc_corr s dsinl i j
        = calc_corr_raw s dsinl i j + (if i = j then (10 : ℝ) ^ (-10 : ℤ) else 0) := by
  have hraw : ∀ a b : Fin s.length,
      calc_corr_raw s dsinl a b = calc_corr_raw s dsinl b a := by
    intro a b
    unfold calc_corr_raw
    rw [abs_sub_comm]
  have hdiag : ∀ a : Fin s.length, calc_corr_raw s dsinl a a = 1 := by
    intro a
    unfold calc_corr_raw
    rw [sub_self, abs_zero, neg_zero, zero_div, Real.exp_zero]
  refine ⟨?_, ?_, hraw i j, ?_⟩
  · unfold calc_corr
    by_cases hij : i = j
    · subst hij; rfl
    · rw [hraw i j, if_neg hij, if_neg (fun e => hij e.symm)]
  · unfold calc_corr
    rw [hdiag i, if_pos rfl]
    norm_num
  · unfold calc_corr
    rw [hraw j i]
    ring

theorem c2_witness :
    (0 : ℝ) < 1
    ∧ (calc_corr [0, 1] 1 ⟨0, by decide⟩ ⟨1, by decide⟩
          = calc_corr [0, 1] 1 ⟨1, by decide⟩ ⟨0, by decide⟩
        ∧ calc_corr [0, 1] 1 ⟨0, by decide⟩ ⟨0, by decide⟩ = 1 + (10 : ℝ) ^ (-10 : ℤ)
        ∧ calc_corr_raw [0, 1] 1 ⟨0, by decide⟩ ⟨1, by decide⟩
          = calc_corr_raw [0, 1] 1 ⟨1, by decide⟩ ⟨0, by decide⟩
        ∧ calc_corr [0, 1] 1 ⟨0, by decide⟩ ⟨1, by decide⟩
          = calc_corr_raw [0, 1] 1 ⟨0, by decide⟩ ⟨1, by decide⟩
            + (if (⟨0, by decide⟩ : Fin ([(0 : ℝ), 1] : List ℝ).length)
                  = ⟨1, by decide⟩ then (10 : ℝ) ^ (-10 : ℤ) else 0)) :=
  ⟨by norm_num, c2_calc_corr_props [0, 1] 1 (by norm_num) ⟨0, by decide⟩ ⟨1, by decide⟩⟩

/-- C3: the longitude filter of each survey reader retains exactly the rows
with `lo < longitude < hi` in their original order (Clemens and
McClure-Griffiths 16 use the window `(40, 80)`, McClure-Griffiths 07 uses
`(280, 320)`); in particular a row whose longitude equals a window endpoint
exactly is excluded. -/
theorem c3_filter_strict (rows : List (ℚ × ℚ)) :
    ((applyLonFilter 40 80 rows).1
        = (rows.filter (fun r => decide (40 < r.1) && decide (r.1 < 80))).map Prod.fst
      ∧ (applyLonFilter 40 80 rows).2
        = (rows.filter (fun r => decide (40 < r.1) && decide (r.1 < 80))).map Prod.snd)
    ∧ ((applyLonFilter 280 320 rows).1
        = (rows.filter (fun r => decide (280 < r.1) && decide (r.1 < 320))).map Prod.fst
      ∧ (applyLonFilter 280 320 rows).2
        = (rows.filter (fun r => decide (280 < r.1) && decide (r.1 < 320))).map Prod.snd)
    ∧ ((40 : ℚ) ∉ (applyLonFilter 40 80 rows).1
      ∧ (80 : ℚ) ∉ (applyLonFilter 40 80 rows).1
      ∧ (280 : ℚ) ∉ (applyLonFilter 280 320 rows).1
      ∧ (320 : ℚ) ∉ (applyLonFilter 280 320 rows).1) := by
  have key : ∀ lo hi : ℚ,
      (applyLonFilter lo hi rows).1
        = (rows.filter (fun r => decide (lo < r.1) && decide (r.1 < hi))).map Prod.fst
      ∧ (applyLonFilter lo hi rows).2
        = (rows.filter (fun r => decide (lo < r.1) && decide (r.1 < hi))).map Prod.snd := by
    intro lo hi
    constructor
    · show maskFilter ((rows.map Prod.fst).map
          (fun l => decide (lo < l) && decide (l < hi))) (rows.map Prod.fst) = _
      rw [maskFilter_map_fun]
    · show maskFilter ((rows.map Prod.fst).map
          (fun l => decide (lo < l) && decide (l < hi))) (rows.map Prod.snd) = _
      rw [maskFilter_map_fun]
  have bound : ∀ lo hi x : ℚ, x ∈ (applyLonFilter lo hi rows).1 → lo < x ∧ x < hi := by
    intro lo hi x hx
    rw [(key lo hi).1] at hx
    obtain ⟨r, hr, hrx⟩ := List.mem_map.mp hx
    have hcond := (List.mem_filter.mp hr).2
    simp only [Bool.and_eq_true, decide_eq_true_eq] at hcond
    rw [← hrx]
    exact hcond
  refine ⟨key 40 80, key 280 320, ?_, ?_, ?_, ?_⟩
  · intro hmem; exact absurd (bound 40 80 40 hmem).1 (lt_irrefl 40)
  · intro hmem; exact absurd (bound 40 80 80 hmem).2 (lt_irrefl 80)
  · intro hmem; exact absurd (bound 280 320 280 hmem).1 (lt_irrefl 280)
  · intro hmem; exact absurd (bound 280 320 320 hmem).2 (lt_irrefl 320)

theorem c3_witness : (40 : ℚ) ∉ (applyLonFilter 40 80 [((40 : ℚ), (1 : ℚ))]).1 :=
  (c3_filter_strict [((40 : ℚ), (1 : ℚ))]).2.2.1

/-- C4: `readClemens` accepts no `bin` parameter and the guard of its binning
branch tests the truthiness of the builtin name `bin`, so for every parsed
file content and every `dsinl` the result is the binned and NaN-filtered
data, never the unbinned filtered rows: the reader always equals the binning
branch, and every longitude it returns is a defined (non-NaN) value. -/
theorem c4_clemens_always_bins (rows : List (ℚ × ℚ)) (dsinl : ℝ) :
    readClemens rows dsinl =
      (match binlbins (applyLonFilter 40 80 rows).1 (applyLonFilter 40 80 rows).2 1 with
        | Except.error e => Except.error e
        | Except.ok gv =>
            Except.ok ⟨maskFilter (gv.1.map (fun o => !(npIsNaN o))) gv.1,
              maskFilter (gv.1.map (fun o => !(npIsNaN o))) gv.2,
              corrStep (maskFilter (gv.1.map (fun o => !(npIsNaN o))) gv.1) dsinl⟩)
    ∧ (∀ r, readClemens rows dsinl = Except.ok r → ∀ o ∈ r.glon, o.isSome = true) := by
  constructor
  · rfl
  · intro r h o ho
    obtain ⟨og, ov, hb, hg⟩ := readClemens_ok_elim rows dsinl r h
    rw [hg, maskFilter_map_self] at ho
    have hcond := (List.mem_filter.mp ho).2
    cases o with
    | none => simp [npIsNaN] at hcond
    | some x => rfl

theorem c4_witness :
    readClemens [((83 : ℚ)/2, 3)] 1 =
      Except.ok ⟨[some ((83 : ℚ)/2)], [some (3 : ℚ)], corrStep [some ((83 : ℚ)/2)] 1⟩
    ∧ (∀ r, readClemens [((83 : ℚ)/2, 3)] 1 = Except.ok r →
        ∀ o ∈ r.glon, o.isSome = true) := by
  with_unfolding_all exact c4_clemens_always_bins [((83 : ℚ)/2, 3)] 1

/-- C7 counterexample: the claim that the binned longitude sequence is
non-decreasing under the (IEEE) order even across the NaN entries left by
empty bins is false for the McClure-Griffiths 07 reader: the rows
`[(281.3, 1), (283.2, 2)]` leave the middle bin `(282, 283)` empty, the
returned longitudes are `[281.3, NaN, 283.2]`, and `281.3 <= NaN` is false. -/
theorem c7_counterexample :
    ¬ ∀ (rows : List (ℚ × ℚ)) (dsinl : ℝ) (r : TermVelTuple),
        readMcClureGriffiths07 rows dsinl true = Except.ok r →
        List.Chain' (fun a b => fleB a b = true) r.glon := by
  intro hall
  have h := hall [(2813/10, 1), (2832/10, 2)] 1
    ⟨[some (2813/10), none, some (2832/10)], [some 1, none, some 2],
      corrStep [some (2813/10), none, some (2832/10)] 1⟩
    (by with_unfolding_all rfl)
  simp [List.chain'_cons, fleB] at h

/-- C7 amended: for the binning readers the longitude output is ordered in
the following sense.  For `readMcClureGriffiths07` and
`readMcClureGriffiths16` (which keep NaN entries) the subsequence of defined
(non-NaN) longitudes is strictly increasing, while an adjacent pair involving
a NaN entry is not `<=`-comparable; for `readClemens` (which drops NaN
entries) the returned longitude sequence is non-decreasing under the IEEE
order exactly as originally claimed. -/
theorem c7_amended_theorem (rows07 rows16 rowsC : List (ℚ × ℚ))
    (d07 d16 dC : ℝ) (r07 r16 rC : TermVelTuple)
    (h07 : readMcClureGriffiths07 rows07 d07 true = Except.ok r07)
    (h16 : readMcClureGriffiths16 rows16 d16 true = Except.ok r16)
    (hC : readClemens rowsC dC = Except.ok rC) :
    List.Chain' (fun x y : ℚ => x < y) r07.glon.reduceOption
    ∧ List.Chain' (fun x y : ℚ => x < y) r16.glon.reduceOption
    ∧ List.Chain' (fun a b => fleB a b = true) rC.glon := by
  obtain ⟨og7, ov7, hb7, hg7⟩ := readMG07_ok_elim rows07 d07 r07 h07
  obtain ⟨og16, ov16, hb16, hg16⟩ := readMG16_ok_elim rows16 d16 r16 h16
  obtain ⟨ogC, ovC, hbC, hgC⟩ := readClemens_ok_elim rowsC dC rC hC
  refine ⟨?_, ?_, ?_⟩
  · rw [hg7]; exact binlbins_chain_lt _ _ _ _ _ hb7
  · rw [hg16]; exact binlbins_chain_lt _ _ _ _ _ hb16
  · rw [hgC, filter_not_isNaN]
    exact chain_fleB_of_chain_lt _ (binlbins_chain_lt _ _ _ _ _ hbC)

theorem c7_amended_witness :
    List.Chain' (fun x y : ℚ => x < y)
      (List.reduceOption [some ((2813 : ℚ)/10), none, some (2832/10)])
    ∧ List.Chain' (fun x y : ℚ => x < y)
      (List.reduceOption [some ((413 : ℚ)/10), none, some (432/10)])
    ∧ List.Chain' (fun a b => fleB a b = true)
      [some ((413 : ℚ)/10), some (432/10)] :=
  c7_amended_theorem [(2813/10, 1), (2832/10, 2)] [(413/10, 1), (432/10, 2)]
    [(413/10, 1), (432/10, 2)] 1 1 1
    ⟨[some (2813/10), none, some (2832/10)], [some 1, none, some 2],
      corrStep [some (2813/10), none, some (2832/10)] 1⟩
    ⟨[some (413/10), none, some (432/10)], [some 1, none, some 2],
      corrStep [some (413/10), none, some (432/10)] 1⟩
    ⟨[some (413/10), some (432/10)], [some 1, some 2],
      corrStep [some (413/10), some (432/10)] 1⟩
    (by with_unfolding_all rfl) (by with_unfolding_all rfl)
    (by with_unfolding_all rfl)

/-- C8: for every bin of `_binlbins` that has at least one member (its
emitted mean is defined), the emitted longitude mean lies between the
minimum and the maximum of the longitude values contributing to that bin,
inclusive, and likewise for the velocity mean. -/
theorem c8_mean_bounds (glon vterm : List ℚ) (dl : ℚ) (og ov : List (Option ℚ))
    (h : binlbins glon vterm dl = Except.ok (og, ov)) (ii : ℕ) (mg mv : ℚ)
    (hg : og.getD ii none = some mg) (hv : ov.getD ii none = some mv) :
    (listMin (maskFilter (binMask glon
          ((npFloorInt (listMin glon) : ℚ) + (ii : ℚ))) glon) ≤ mg
      ∧ mg ≤ listMax (maskFilter (binMask glon
          ((npFloorInt (listMin glon) : ℚ) + (ii : ℚ))) glon))
    ∧ (listMin (maskFilter (binMask glon
          ((npFloorInt (listMin glon) : ℚ) + (ii : ℚ))) vterm) ≤ mv
      ∧ mv ≤ listMax (maskFilter (binMask glon
          ((npFloorInt (listMin glon) : ℚ) + (ii : ℚ))) vterm)) := by
  obtain ⟨hgne, hog, hov⟩ := binlbins_ok_elim glon vterm dl og ov h
  subst hog
  subst hov
  rw [getD_map_range] at hg hv
  by_cases hlt : ii < (npFloorInt (listMax glon) - npFloorInt (listMin glon) + 1).toNat
  · rw [if_pos hlt] at hg hv
    exact ⟨npMean_bounds _ _ hg, npMean_bounds _ _ hv⟩
  · rw [if_neg hlt] at hg
    cases hg

theorem c8_witness :
    (listMin (maskFilter (binMask [201/5, 407/10, 421/10]
          ((npFloorInt (listMin [201/5, 407/10, 421/10]) : ℚ) + ((0 : ℕ) : ℚ)))
        [201/5, 407/10, 421/10]) ≤ 809/20
      ∧ (809 : ℚ)/20 ≤ listMax (maskFilter (binMask [201/5, 407/10, 421/10]
          ((npFloorInt (listMin [201/5, 407/10, 421/10]) : ℚ) + ((0 : ℕ) : ℚ)))
        [201/5, 407/10, 421/10]))
    ∧ (listMin (maskFilter (binMask [201/5, 407/10, 421/10]
          ((npFloorInt (listMin [201/5, 407/10, 421/10]) : ℚ) + ((0 : ℕ) : ℚ)))
        [10, 12, 20]) ≤ 11
      ∧ (11 : ℚ) ≤ listMax (maskFilter (binMask [201/5, 407/10, 421/10]
          ((npFloorInt (listMin [201/5, 407/10, 421/10]) : ℚ) + ((0 : ℕ) : ℚ)))
        [10, 12, 20])) :=
  c8_mean_bounds [201/5, 407/10, 421/10] [10, 12, 20] 1
    [some (809/20), none, some (421/10)] [some 11, none, some 20]
    (by with_unfolding_all rfl) 0 (809/20) 11 rfl rfl

/-- C9: `readallMcClureGriffiths` returns the flat 6-tuple whose components
are, in this order, the three fields of `readMcClureGriffiths07` followed by
the three fields of `readMcClureGriffiths16`:
`(glon07, vterm07, corr07, glon16, vterm16, corr16)`. -/
theorem c9_readall_order (rows07 rows16 : List (ℚ × ℚ)) (dsinl : ℝ) (bin : Bool)
    (r07 r16 : TermVelTuple)
    (h07 : readMcClureGriffiths07 rows07 dsinl bin = Except.ok r07)
    (h16 : readMcClureGriffiths16 rows16 dsinl bin = Except.ok r16) :
    readallMcClureGriffiths rows07 rows16 dsinl bin =
      Except.ok (r07.glon, r07.vterm, r07.corr, r16.glon, r16.vterm, r16.corr) := by
  unfold readallMcClureGriffiths
  rw [h07, h16]

theorem c9_witness :
    readallMcClureGriffiths [((300 : ℚ), (7 : ℚ))] [((50 : ℚ), (8 : ℚ))] 1 false =
      Except.ok ([some (300 : ℚ)], [some (7 : ℚ)], corrStep [some (300 : ℚ)] 1,
        [some (50 : ℚ)], [some (8 : ℚ)], corrStep [some (50 : ℚ)] 1) :=
  c9_readall_order [((300 : ℚ), (7 : ℚ))] [((50 : ℚ), (8 : ℚ))] 1 false
    ⟨[some (300 : ℚ)], [some (7 : ℚ)], corrStep [some (300 : ℚ)] 1⟩
    ⟨[some (50 : ℚ)], [some (8 : ℚ)], corrStep [some (50 : ℚ)] 1⟩
    (by with_unfolding_all rfl) (by with_unfolding_all rfl)
